import Mathlib

/-!
Verification of the tree-based extreme multi-label classifier in
libmultilabel/linear/tree.py (LibMultiLabel).

The Python source is shallowly embedded below:

* LTree embeds the Node class (tree.py lines 23-44): a label_map plus an
  ordered list of children; a node is a leaf iff children is empty.
* buildTree embeds _build_tree (lines 214-256).  The external clustering
  primitive (sklearn KMeans) is abstracted as a function assign from the
  row list of the label representation to a list of cluster ids, matching
  the collaborator contract of the specification; row contents are an
  abstract type since only the row count and the cluster assignment are
  inspected by _build_tree itself.  Boolean-mask selection
  rows[metalabels == i] is embedded as maskSelect.
* dfsList embeds Node.dfs visitation order (lines 40-44).
* colCount gives the number of columns of the weight block _train_node
  attaches to a node (lines 259-288): columns of y[:, label_map] for a
  leaf, one metalabel column per child for an internal node.
* cumsum / weightMap embed the np.cumsum([0] + counts) offset table of
  _flatten_model (line 329).
* MTree / flattenModel embed the bias assertion and collection loop of
  _flatten_model (lines 308-331); Except.error stands for the raised
  AssertionError, which aborts with no partial result.
* BTree / beamStep / beamLoop / finalScores / beamSearch embed
  TreeModel._beam_search (lines 84-119).  Scores are embedded as rationals;
  the field pred of a node stands for the slice
  instance_preds[weight_map[node.index] : weight_map[node.index + 1]].
  Python sorted is a stable sort, embedded as List.mergeSort on the key
  used by the code (ascending in the negated score); stableSortDesc is the
  comparison definition written from the words of the specification (a
  stable descending sort on the score) for the refinement claim about the
  beam selection.  The final output vector is embedded as a list of
  exponents: an entry none stands for -infinity, an entry some e stands
  for exp(e).
* MmapInfo / asMmapStep embed the cursor and capacity bookkeeping of
  _as_mmap (lines 349-377): the data and indices arrays always share one
  capacity (both are resized together, lines 361-364), and the indptr
  array is never resized there.  Python int.bit_length is Nat.size.
* Csr / hstackInfo / mmapHstack embed _mmap_hstack and _hstack_info
  (lines 380-436) at the level of shapes, nonzero counts and the number of
  mapped-array files created.
* CacheEntry / loadOrBuildRoot embed the cache branch of train_tree
  (lines 150-161): pickle.load of a corrupt entry raises, and the code
  wraps it in no exception handler.
-/

/-- Shallow embedding of the Node class of tree.py: the labels under the
node and the ordered list of children.  A node is a leaf iff children is
empty. -/
inductive LTree where
  | mk (label_map : List ℕ) (children : List LTree)

/-- Projection of the label_map attribute of a Node. -/
def LTree.label_map : LTree → List ℕ
  | .mk lm _ => lm

/-- Projection of the children attribute of a Node. -/
def LTree.children : LTree → List LTree
  | .mk _ cs => cs

/-- Embedding of Node.isLeaf: len(children) == 0. -/
def LTree.isLeaf (t : LTree) : Bool := t.children.length == 0

mutual
/-- Visitation order of Node.dfs (tree.py lines 40-44): the node itself,
then each child subtree in order. -/
def dfsList : LTree → List LTree
  | .mk lm cs => .mk lm cs :: dfsForest cs
/-- Depth-first visitation of a list of sibling subtrees in order. -/
def dfsForest : List LTree → List LTree
  | [] => []
  | t :: ts => dfsList t ++ dfsForest ts
end

/-- Embedding of numpy boolean-mask selection xs[ms == i]: the elements of
xs at positions where the metalabel equals the cluster id i. -/
def maskSelect {α : Type} (xs : List α) (ms : List ℕ) (i : ℕ) : List α :=
  ((xs.zip ms).filter fun p => p.2 == i).map Prod.fst

/-- Embedding of _build_tree (tree.py lines 214-256).  The base case
(d >= dmax or at most K labels) returns a leaf carrying label_map.  The
recursive case clusters the rows with the external primitive assign and
creates one child per cluster id i in range(K), recursing on the rows and
label-map entries whose metalabel is i.  The loop appends a child for
every i, with no emptiness test. -/
def buildTree {ρ : Type} (assign : List ρ → List ℕ) (rows : List ρ) (lmap : List ℕ)
    (d K dmax : ℕ) : LTree :=
  if h : dmax ≤ d ∨ rows.length ≤ K then
    LTree.mk lmap []
  else
    let metalabels := assign rows
    LTree.mk lmap ((List.range K).map fun i =>
      buildTree assign (maskSelect rows metalabels i) (maskSelect lmap metalabels i)
        (d + 1) K dmax)
termination_by dmax - d
decreasing_by push_neg at h; omega

/-- Unfolding of buildTree in the base case. -/
theorem buildTree_base {ρ : Type} (assign : List ρ → List ℕ) (rows : List ρ) (lmap : List ℕ)
    (d K dmax : ℕ) (h : dmax ≤ d ∨ rows.length ≤ K) :
    buildTree assign rows lmap d K dmax = LTree.mk lmap [] := by
  rw [buildTree, dif_pos h]

/-- Unfolding of buildTree in the recursive (clustering) case. -/
theorem buildTree_rec {ρ : Type} (assign : List ρ → List ℕ) (rows : List ρ) (lmap : List ℕ)
    (d K dmax : ℕ) (h : ¬ (dmax ≤ d ∨ rows.length ≤ K)) :
    buildTree assign rows lmap d K dmax
      = LTree.mk lmap ((List.range K).map fun i =>
          buildTree assign (maskSelect rows (assign rows) i) (maskSelect lmap (assign rows) i)
            (d + 1) K dmax) := by
  rw [buildTree, dif_neg h]

/-- Selections by the same mask from lists of equal length have equal
length: the mask inspects positions only. -/
theorem maskSelect_length {α β : Type} :
    ∀ (ms : List ℕ) (xs : List α) (ys : List β) (i : ℕ), xs.length = ys.length →
      (maskSelect xs ms i).length = (maskSelect ys ms i).length := by
  intro ms
  induction ms with
  | nil =>
    intro xs ys i h
    simp [maskSelect]
  | cons m ms ih =>
    intro xs ys i h
    match xs, ys with
    | [], [] => simp [maskSelect]
    | x :: xs2, y :: ys2 =>
      simp only [List.length_cons, Nat.add_right_cancel_iff] at h
      by_cases hm : (m == i) = true
      · simpa [maskSelect, hm] using ih xs2 ys2 i h
      · simpa [maskSelect, hm] using ih xs2 ys2 i h

/-- C8: whenever _build_tree takes the recursive case, the returned node
has exactly K children, the child at position i is the recursive build on
the rows and labels of cluster i (one child per cluster id in order
0..K-1), and a cluster with no assigned rows still yields a child, namely
a leaf keeping the (then empty) selected label_map, because its 0-row
representation satisfies the base case. -/
theorem buildTree_exactly_K_children {ρ : Type} (assign : List ρ → List ℕ) (rows : List ρ)
    (lmap : List ℕ) (d K dmax : ℕ) (h : ¬ (dmax ≤ d ∨ rows.length ≤ K)) :
    (buildTree assign rows lmap d K dmax).children.length = K
    ∧ (∀ i, i < K →
        (buildTree assign rows lmap d K dmax).children[i]?
          = some (buildTree assign (maskSelect rows (assign rows) i)
              (maskSelect lmap (assign rows) i) (d + 1) K dmax))
    ∧ (∀ i, i < K → maskSelect rows (assign rows) i = [] →
        (buildTree assign rows lmap d K dmax).children[i]?
          = some (LTree.mk (maskSelect lmap (assign rows) i) [])) := by
  rw [buildTree_rec assign rows lmap d K dmax h]
  refine ⟨by simp [LTree.children], ?_, ?_⟩
  · intro i hi
    simp [LTree.children, List.getElem?_map, List.getElem?_range hi]
  · intro i hi hempty
    simp only [LTree.children, List.getElem?_map, List.getElem?_range hi, Option.map_some']
    rw [hempty, buildTree_base _ _ _ _ _ _ (Or.inr (by simp))]

/-- C8 witness: a concrete recursive build with K = 2 where the external
clustering assigns every row to cluster 0; cluster 1 is empty and still
yields the leaf child with empty label_map. -/
theorem buildTree_exactly_K_children_wit :
    (buildTree (fun _ : List ℕ => [0, 0, 0]) [10, 20, 30] [0, 1, 2] 0 2 1).children[1]?
      = some (LTree.mk (maskSelect [0, 1, 2] ((fun _ : List ℕ => [0, 0, 0]) [10, 20, 30]) 1) []) :=
  (buildTree_exactly_K_children (fun _ : List ℕ => [0, 0, 0]) [10, 20, 30] [0, 1, 2] 0 2 1
    (by decide)).2.2 1 (by decide) (by decide)

/-- C1 counterexample: in the concrete recursive build of the C8 witness,
the cluster with no assigned labels is not skipped; the built root has two
children and the second one has an empty label_map, so a child with empty
label_map is created. -/
theorem buildTree_no_skip_cex :
    (buildTree (fun _ : List ℕ => [0, 0, 0]) [10, 20, 30] [0, 1, 2] 0 2 1).children.map
        LTree.label_map
      = [[0, 1, 2], []] := by
  rw [buildTree_rec _ _ _ _ _ _ (by decide)]
  simp only [LTree.children, List.range_succ, List.range_zero]
  norm_num [maskSelect]
  rw [buildTree_base _ _ _ _ _ _ (by norm_num), buildTree_base _ _ _ _ _ _ (by norm_num)]
  simp [LTree.label_map]

/-- C1 amended: in the recursive case clusters with an empty assigned
label subset are NOT skipped; one child is created for every cluster id
0..K-1, so every node built by the recursive case has exactly K children,
and a cluster whose assigned label subset is empty contributes a child
that is a leaf with empty label_map (so an internal node can have a child
with empty label_map, and the branching factor is exactly K, never less). -/
theorem buildTree_empty_cluster_child {ρ : Type} (assign : List ρ → List ℕ) (rows : List ρ)
    (lmap : List ℕ) (d K dmax : ℕ) (h : ¬ (dmax ≤ d ∨ rows.length ≤ K))
    (hlen : rows.length = lmap.length) :
    (buildTree assign rows lmap d K dmax).children.length = K
    ∧ (∀ i, i < K → maskSelect lmap (assign rows) i = [] →
        (buildTree assign rows lmap d K dmax).children[i]? = some (LTree.mk [] [])) := by
  rw [buildTree_rec assign rows lmap d K dmax h]
  refine ⟨by simp [LTree.children], ?_⟩
  intro i hi hempty
  have hrows : maskSelect rows (assign rows) i = [] := by
    have hle := maskSelect_length (assign rows) rows lmap i hlen
    rw [hempty] at hle
    simpa using List.length_eq_zero.mp (by simpa using hle)
  simp only [LTree.children, List.getElem?_map, List.getElem?_range hi, Option.map_some']
  rw [hrows, hempty, buildTree_base _ _ _ _ _ _ (Or.inr (by simp))]

/-- C1 amended witness: the concrete build of the counterexample satisfies
the amended statement; cluster 1 has an empty label subset and its child
is the leaf with empty label_map. -/
theorem buildTree_empty_cluster_child_wit :
    (buildTree (fun _ : List ℕ => [0, 0, 0]) [10, 20, 30] [0, 1, 2] 0 2 1).children[1]?
      = some (LTree.mk [] []) :=
  (buildTree_empty_cluster_child (fun _ : List ℕ => [0, 0, 0]) [10, 20, 30] [0, 1, 2] 0 2 1
    (by decide) (by decide)).2 1 (by decide) (by decide)

/-- Number of columns of the weight block _train_node attaches to a node
(tree.py lines 259-288): a leaf is trained on y[:, label_map], giving one
column per label; an internal node is trained on the metalabel matrix,
giving one column per child.  The leaf test is the isLeaf method of the
source. -/
def colCount (t : LTree) : ℕ :=
  if t.isLeaf then t.label_map.length else t.children.length

/-- Embedding of np.cumsum(acc :: cs): the running partial sums, starting
at the accumulator. -/
def cumsum : ℕ → List ℕ → List ℕ
  | acc, [] => [acc]
  | acc, c :: cs => acc :: cumsum (acc + c) cs

/-- The weight_map of _flatten_model (tree.py line 329): the exclusive
prefix sum of the per-node column counts, the nodes taken in the
depth-first visitation order in which _flatten_model assigns node.index
(so the node with index i is position i of dfsList). -/
def weightMap (t : LTree) : List ℕ := cumsum 0 ((dfsList t).map colCount)

/-- Length of a cumulative sum: one more than the summand list. -/
theorem cumsum_length (cs : List ℕ) : ∀ a : ℕ, (cumsum a cs).length = cs.length + 1 := by
  induction cs with
  | nil => intro a; simp [cumsum]
  | cons c cs ih => intro a; simp [cumsum, ih]

/-- Head of a cumulative sum is the accumulator. -/
theorem cumsum_head (cs : List ℕ) : ∀ a : ℕ, (cumsum a cs).head? = some a := by
  cases cs <;> intro a <;> simp [cumsum]

/-- Consecutive entries of a cumulative sum differ by the corresponding
summand. -/
theorem cumsum_get_succ (cs : List ℕ) : ∀ (a i : ℕ) (h1 : i + 1 < (cumsum a cs).length)
    (h2 : i < (cumsum a cs).length) (h3 : i < cs.length),
    (cumsum a cs).get ⟨i + 1, h1⟩ = (cumsum a cs).get ⟨i, h2⟩ + cs.get ⟨i, h3⟩ := by
  induction cs with
  | nil => intro a i h1 h2 h3; simp at h3
  | cons c cs ih =>
    intro a i h1 h2 h3
    cases i with
    | zero =>
      have hh := cumsum_head cs (a + c)
      cases hcs : cumsum (a + c) cs with
      | nil => rw [hcs] at hh; simp at hh
      | cons b l =>
        rw [hcs] at hh
        simp at hh
        simp [cumsum, hcs, hh]
    | succ j =>
      simp only [cumsum, List.get_cons_succ]
      apply ih

/-- A cumulative sum of natural numbers is nondecreasing. -/
theorem cumsum_chain_le (cs : List ℕ) : ∀ a : ℕ, List.Chain' (· ≤ ·) (cumsum a cs) := by
  induction cs with
  | nil => intro a; simp [cumsum]
  | cons c cs ih =>
    intro a
    rw [cumsum, List.chain'_cons']
    refine ⟨?_, ih (a + c)⟩
    intro b hb
    rw [cumsum_head cs (a + c)] at hb
    simp at hb
    omega

/-- A cumulative sum of positive summands is strictly increasing. -/
theorem cumsum_chain_lt (cs : List ℕ) : ∀ a : ℕ, (∀ c ∈ cs, 0 < c) →
    List.Chain' (· < ·) (cumsum a cs) := by
  induction cs with
  | nil => intro a _; simp [cumsum]
  | cons c cs ih =>
    intro a hpos
    rw [cumsum, List.chain'_cons']
    refine ⟨?_, ih (a + c) (fun x hx => hpos x (List.mem_cons_of_mem c hx))⟩
    intro b hb
    rw [cumsum_head cs (a + c)] at hb
    simp at hb
    have := hpos c (List.mem_cons_self c cs)
    omega

/-- C3 counterexample: the tree built from three labels with K = 2 and an
external clustering that assigns every label to cluster 0 contains the
empty-cluster leaf, whose weight block has zero columns; the resulting
weight_map [0, 2, 5, 5] is not strictly increasing. -/
theorem weightMap_not_strict_cex :
    weightMap (buildTree (fun _ : List ℕ => [0, 0, 0]) [10, 20, 30] [0, 1, 2] 0 2 1)
        = [0, 2, 5, 5]
    ∧ ¬ List.Chain' (· < ·) ([0, 2, 5, 5] : List ℕ) := by
  constructor
  · have hT : buildTree (fun _ : List ℕ => [0, 0, 0]) [10, 20, 30] [0, 1, 2] 0 2 1
        = LTree.mk [0, 1, 2] [LTree.mk [0, 1, 2] [], LTree.mk [] []] := by
      rw [buildTree_rec _ _ _ _ _ _ (by decide)]
      simp only [List.range_succ, List.range_zero]
      norm_num [maskSelect]
      rw [buildTree_base _ _ _ _ _ _ (by norm_num), buildTree_base _ _ _ _ _ _ (by norm_num)]
      exact ⟨rfl, rfl⟩
    rw [hT]
    simp [weightMap, dfsList, dfsForest, colCount, cumsum, LTree.isLeaf, LTree.children,
      LTree.label_map]
  · norm_num [List.chain'_cons]

/-- C3 amended: for every tree produced by the builder, the weight_map is
the exclusive prefix sum of the per-node column counts in depth-first
order: it has length num_nodes + 1, starts at 0, is NONDECREASING (not in
general strictly increasing: a leaf for an empty cluster contributes zero
columns), consecutive differences equal the column count of the node at
that depth-first position (the node _flatten_model gives index i), and it
is strictly increasing when every node has positive column count. -/
theorem weightMap_prefix_sum {ρ : Type} (assign : List ρ → List ℕ) (rows : List ρ)
    (lmap : List ℕ) (d K dmax : ℕ) (t : LTree)
    (ht : t = buildTree assign rows lmap d K dmax) :
    (weightMap t).length = (dfsList t).length + 1
    ∧ (weightMap t).head? = some 0
    ∧ List.Chain' (· ≤ ·) (weightMap t)
    ∧ (∀ (i : ℕ) (h1 : i + 1 < (weightMap t).length) (h2 : i < (weightMap t).length)
        (h3 : i < (dfsList t).length),
        (weightMap t).get ⟨i + 1, h1⟩ - (weightMap t).get ⟨i, h2⟩
          = colCount ((dfsList t).get ⟨i, h3⟩))
    ∧ ((∀ n ∈ dfsList t, 0 < colCount n) → List.Chain' (· < ·) (weightMap t)) := by
  refine ⟨?_, ?_, ?_, ?_, ?_⟩
  · show (cumsum 0 ((dfsList t).map colCount)).length = (dfsList t).length + 1
    rw [cumsum_length]
    simp
  · exact cumsum_head _ 0
  · exact cumsum_chain_le _ 0
  · intro i h1 h2 h3
    have h4 : i < ((dfsList t).map colCount).length := by simpa using h3
    show (cumsum 0 ((dfsList t).map colCount)).get ⟨i + 1, h1⟩
        - (cumsum 0 ((dfsList t).map colCount)).get ⟨i, h2⟩
      = colCount ((dfsList t).get ⟨i, h3⟩)
    rw [cumsum_get_succ ((dfsList t).map colCount) 0 i h1 h2 h4, Nat.add_sub_cancel_left]
    simp [List.get_eq_getElem, List.getElem_map]
  · intro hpos
    show List.Chain' (· < ·) (cumsum 0 ((dfsList t).map colCount))
    apply cumsum_chain_lt
    intro c hc
    rw [List.mem_map] at hc
    obtain ⟨n, hn, rfl⟩ := hc
    exact hpos n hn

/-- C3 amended witness: a concrete build where every cluster is nonempty;
every column count is positive and the weight_map [0, 2, 4, 5] is
strictly increasing. -/
theorem weightMap_prefix_sum_wit :
    List.Chain' (· < ·)
      (weightMap (buildTree (fun _ : List ℕ => [0, 1, 0]) [10, 20, 30] [0, 1, 2] 0 2 1)) := by
  have hT : buildTree (fun _ : List ℕ => [0, 1, 0]) [10, 20, 30] [0, 1, 2] 0 2 1
      = LTree.mk [0, 1, 2] [LTree.mk [0, 2] [], LTree.mk [1] []] := by
    rw [buildTree_rec _ _ _ _ _ _ (by decide)]
    simp only [List.range_succ, List.range_zero]
    norm_num [maskSelect]
    rw [buildTree_base _ _ _ _ _ _ (by norm_num), buildTree_base _ _ _ _ _ _ (by norm_num)]
    exact ⟨rfl, rfl⟩
  apply (weightMap_prefix_sum (fun _ : List ℕ => [0, 1, 0]) [10, 20, 30] [0, 1, 2] 0 2 1 _
    rfl).2.2.2.2
  intro n hn
  rw [hT] at hn
  simp [dfsList, dfsForest] at hn
  rcases hn with rfl | rfl | rfl <;> decide

/-- Node together with the trained model attributes read by
_flatten_model (tree.py lines 308-331): the model bias scalar, the number
of columns of the weight block, and the children.  The label data plays no
role in the flattening checks and is omitted. -/
inductive MTree where
  | mk (bias : ℚ) (cols : ℕ) (children : List MTree)

/-- Projection of node.model.bias. -/
def MTree.bias : MTree → ℚ
  | .mk b _ _ => b

/-- Projection of node.model.weights.shape[1]. -/
def MTree.cols : MTree → ℕ
  | .mk _ c _ => c

/-- Projection of the children attribute. -/
def MTree.children : MTree → List MTree
  | .mk _ _ cs => cs

mutual
/-- Visitation order of Node.dfs on model-carrying nodes. -/
def mdfs : MTree → List MTree
  | .mk b c cs => .mk b c cs :: mdfsForest cs
/-- Depth-first visitation of a list of sibling subtrees in order. -/
def mdfsForest : List MTree → List MTree
  | [] => []
  | t :: ts => mdfs t ++ mdfsForest ts
end

/-- Embedding of the visit loop of _flatten_model (tree.py lines 312-319)
over the depth-first node list: each node is asserted to carry the bias b
of the root captured at line 310; a failed assertion raises immediately
(Except.error, nothing collected), otherwise the column count of the
weight block is collected. -/
def flattenVisit (b : ℚ) : List MTree → Except Unit (List ℕ)
  | [] => Except.ok []
  | n :: rest =>
    if MTree.bias n = b then
      match flattenVisit b rest with
      | Except.ok cs => Except.ok (MTree.cols n :: cs)
      | Except.error e => Except.error e
    else Except.error ()

/-- Embedding of _flatten_model (tree.py lines 291-331): traverse the tree
depth first checking the bias assertion, then return the flattened model
bias together with the weight_map np.cumsum([0] + column counts).  An
assertion failure aborts with no partial result. -/
def flattenModel (root : MTree) : Except Unit (ℚ × List ℕ) :=
  match flattenVisit (MTree.bias root) (mdfs root) with
  | Except.ok cs => Except.ok (MTree.bias root, cumsum 0 cs)
  | Except.error e => Except.error e

/-- The visit loop succeeds exactly when every visited node carries the
reference bias. -/
theorem flattenVisit_ok_iff (b : ℚ) :
    ∀ l : List MTree, (∃ cs, flattenVisit b l = Except.ok cs) ↔ ∀ n ∈ l, MTree.bias n = b := by
  intro l
  induction l with
  | nil => simp [flattenVisit]
  | cons n rest ih =>
    by_cases hb : MTree.bias n = b
    · constructor
      · intro hcs m hm
        rcases List.mem_cons.mp hm with rfl | hm2
        · exact hb
        · obtain ⟨cs, hcs⟩ := hcs
          rw [flattenVisit, if_pos hb] at hcs
          cases hrest : flattenVisit b rest with
          | ok cs0 => exact (ih.mp ⟨cs0, hrest⟩) m hm2
          | error e => rw [hrest] at hcs; exact absurd hcs (by simp)
      · intro hall
        obtain ⟨cs0, hcs0⟩ := ih.mpr fun m hm => hall m (List.mem_cons_of_mem n hm)
        exact ⟨MTree.cols n :: cs0, by rw [flattenVisit, if_pos hb, hcs0]⟩
    · constructor
      · intro hcs
        obtain ⟨cs, hcs⟩ := hcs
        rw [flattenVisit, if_neg hb] at hcs
        exact absurd hcs (by simp)
      · intro hall
        exact absurd (hall n (List.mem_cons_self n rest)) hb

/-- C6: _flatten_model succeeds if and only if every node in the
depth-first traversal carries the same bias as the root (the assertion at
line 313 fails on the first node whose model bias differs, aborting with
no partial result), and on success the flattened model carries exactly
the root bias, which is then the shared bias value. -/
theorem flattenModel_bias_iff (root : MTree) :
    ((∃ r, flattenModel root = Except.ok r) ↔ ∀ n ∈ mdfs root, MTree.bias n = MTree.bias root)
    ∧ ∀ r, flattenModel root = Except.ok r → r.1 = MTree.bias root := by
  constructor
  · rw [← flattenVisit_ok_iff (MTree.bias root) (mdfs root)]
    constructor
    · intro hr
      obtain ⟨r, hr⟩ := hr
      rw [flattenModel] at hr
      cases hv : flattenVisit (MTree.bias root) (mdfs root) with
      | ok cs => exact ⟨cs, rfl⟩
      | error e => rw [hv] at hr; exact absurd hr (by simp)
    · intro hcs
      obtain ⟨cs, hcs⟩ := hcs
      exact ⟨(MTree.bias root, cumsum 0 cs), by rw [flattenModel, hcs]⟩
  · intro r hr
    rw [flattenModel] at hr
    cases hv : flattenVisit (MTree.bias root) (mdfs root) with
    | ok cs =>
      rw [hv] at hr
      simp at hr
      rw [← hr]
    | error e => rw [hv] at hr; exact absurd hr (by simp)

/-- C6 witness: a concrete two-node tree with equal biases flattens
successfully and the flattened model carries the shared bias. -/
theorem flattenModel_bias_iff_wit :
    Prod.fst ((1 : ℚ), cumsum 0 [3, 2]) = MTree.bias (MTree.mk 1 3 [MTree.mk 1 2 []]) :=
  (flattenModel_bias_iff (MTree.mk 1 3 [MTree.mk 1 2 []])).2 ((1 : ℚ), cumsum 0 [3, 2])
    (by simp [flattenModel, flattenVisit, mdfs, mdfsForest, MTree.bias, MTree.cols])

/-- Node as seen by TreeModel._beam_search (tree.py lines 84-119): the
label_map, the slice of cached decision values belonging to this node
(pred = instance_preds[weight_map[node.index] : weight_map[node.index+1]],
one rational per output column of the node), and the children. -/
inductive BTree where
  | mk (label_map : List ℕ) (pred : List ℚ) (children : List BTree)

/-- Projection of the label_map attribute. -/
def BTree.label_map : BTree → List ℕ
  | .mk lm _ _ => lm

/-- Projection of the cached decision-value slice of the node. -/
def BTree.pred : BTree → List ℚ
  | .mk _ p _ => p

/-- Projection of the children attribute. -/
def BTree.children : BTree → List BTree
  | .mk _ _ cs => cs

/-- Embedding of Node.isLeaf: len(children) == 0. -/
def BTree.isLeaf (t : BTree) : Bool := t.children.length == 0

/-- Cumulative score of a child given the parent score s and the decision
value p of the corresponding column: score - np.maximum(0, 1 - pred)**2
(tree.py lines 107 and 118). -/
def childScore (s p : ℚ) : ℚ := s - (max 0 (1 - p)) ^ 2

/-- Expansion step of one round of the beam-search loop (tree.py lines
101-108): leaves in the current beam are carried forward unchanged;
every internal node emits one (child, cumulative score) pair per child,
in child order, in the emission order of the loop. -/
def expandLevel (cur : List (BTree × ℚ)) : List (BTree × ℚ) :=
  cur.flatMap fun pr =>
    if pr.1.isLeaf then [pr]
    else pr.1.children.zip (pr.1.pred.map fun p => childScore pr.2 p)

/-- Embedding of Python sorted(next_level, key=lambda pair: -pair[1])
(tree.py line 110): Python sorted is a stable sort, ascending in the key,
here the negated score. -/
def pySorted (l : List (BTree × ℚ)) : List (BTree × ℚ) :=
  l.mergeSort fun a b => decide (-a.2 ≤ -b.2)

/-- Modelled from the spec wording for the refinement claim about the
beam selection: a stable sort by score, descending. -/
def stableSortDesc (l : List (BTree × ℚ)) : List (BTree × ℚ) :=
  l.mergeSort fun a b => decide (b.2 ≤ a.2)

/-- One round of the beam-search loop after expansion (tree.py line 110):
sort the expanded pool by the code key and keep the first beam_width
entries. -/
def beamStep (w : ℕ) (cur : List (BTree × ℚ)) : List (BTree × ℚ) :=
  (pySorted (expandLevel cur)).take w

/-- Number of internal nodes in the beam (tree.py line 97), the loop
termination test. -/
def numInternal (cur : List (BTree × ℚ)) : ℕ :=
  (cur.filter fun pr => ¬ pr.1.isLeaf).length

/-- The while loop of _beam_search (tree.py lines 96-111), with explicit
fuel: the loop exits when the beam holds no internal node; each tree is of
finite depth, so running with fuel at least the tree height reproduces the
unbounded while loop of the source. -/
def beamLoop (w : ℕ) : ℕ → List (BTree × ℚ) → List (BTree × ℚ)
  | 0, cur => cur
  | fuel + 1, cur => if numInternal cur = 0 then cur else beamLoop w fuel (beamStep w cur)

/-- Embedding of the output loop of _beam_search (tree.py lines 113-118)
at the level of exponents: the vector starts as num_labels entries of
-infinity (none); each surviving (node, score) pair overwrites the
positions of its label_map with the exponents score - max(0, 1 - pred)**2
written by np.exp elementwise (an entry some e of the result stands for
the written value exp(e)). -/
def finalScores (numLabels : ℕ) (final : List (BTree × ℚ)) : List (Option ℚ) :=
  final.foldl
    (fun scores pr =>
      (pr.1.label_map.zip pr.1.pred).foldl
        (fun sc lp => sc.set lp.1 (some (childScore pr.2 lp.2))) scores)
    (List.replicate numLabels none)

/-- Embedding of _beam_search for one instance (tree.py lines 84-119):
run the loop from the beam [(root, 0.0)] and write the final per-label
exponent vector of length len(root.label_map). -/
def beamSearch (w fuel : ℕ) (root : BTree) : List (Option ℚ) :=
  finalScores root.label_map.length (beamLoop w fuel [(root, 0)])

/-- Transitivity of the comparison used by the code sort. -/
theorem codeLe_trans (a b c : BTree × ℚ)
    (hab : decide (-a.2 ≤ -b.2) = true) (hbc : decide (-b.2 ≤ -c.2) = true) :
    decide (-a.2 ≤ -c.2) = true := by
  simp at hab hbc ⊢
  linarith

/-- Totality of the comparison used by the code sort. -/
theorem codeLe_total (a b : BTree × ℚ) :
    (decide (-a.2 ≤ -b.2) || decide (-b.2 ≤ -a.2)) = true := by
  simp [Bool.or_eq_true]
  exact le_total _ _

/-- The code key (ascending in the negated score) and the specification
order (descending in the score) are the same comparison. -/
theorem pySorted_eq_stableSortDesc (l : List (BTree × ℚ)) : pySorted l = stableSortDesc l := by
  unfold pySorted stableSortDesc
  congr 1
  funext a b
  simp [neg_le_neg_iff]

/-- Python sorted is stable: filtering the sorted pool to any fixed score
value returns those pairs in their original emission order. -/
theorem stableSortDesc_filter_key (l : List (BTree × ℚ)) (q : ℚ) :
    (stableSortDesc l).filter (fun pr => pr.2 == q) = l.filter (fun pr => pr.2 == q) := by
  have hq : ∀ a ∈ l.filter (fun pr : BTree × ℚ => pr.2 == q), a.2 = q := by
    intro a ha
    simpa using (List.mem_filter.mp ha).2
  have hsub : (l.filter (fun pr : BTree × ℚ => pr.2 == q)).Sublist (stableSortDesc l) := by
    apply List.sublist_mergeSort
    · intro a b c hab hbc
      simp at hab hbc ⊢
      linarith
    · intro a b
      simp [Bool.or_eq_true]
      exact le_total _ _
    · apply List.pairwise_of_forall_mem_list
      intro a ha b hb
      rw [hq a ha, hq b hb]
      simp
    · exact List.filter_sublist l
  have hsub2 : (l.filter (fun pr : BTree × ℚ => pr.2 == q)).Sublist
      ((stableSortDesc l).filter (fun pr => pr.2 == q)) := by
    have h2 := hsub.filter (fun pr : BTree × ℚ => pr.2 == q)
    rwa [List.filter_eq_self.mpr (fun a ha => (List.mem_filter.mp ha).2)] at h2
  refine (hsub2.eq_of_length ?_).symm
  exact (((List.mergeSort_perm l _).filter _).length_eq).symm

/-- C2: each round of per-instance beam search keeps, from the combined
pool of carried-forward leaves and newly expanded children, exactly the
first beam_width entries of the stable descending sort by cumulative
score: the kept beam equals the stable descending sort truncated to
beam_width; it is sorted by descending score; the sorted pool is a
permutation of the emission pool (nothing else enters); and pairs of
equal score stay in original emission order (stability). -/
theorem beamStep_topk (w : ℕ) (cur : List (BTree × ℚ)) :
    beamStep w cur = (stableSortDesc (expandLevel cur)).take w
    ∧ List.Pairwise (fun a b : BTree × ℚ => b.2 ≤ a.2) (beamStep w cur)
    ∧ (stableSortDesc (expandLevel cur)).Perm (expandLevel cur)
    ∧ ∀ q : ℚ, (stableSortDesc (expandLevel cur)).filter (fun pr => pr.2 == q)
        = (expandLevel cur).filter (fun pr => pr.2 == q) := by
  refine ⟨?_, ?_, ?_, ?_⟩
  · rw [beamStep, pySorted_eq_stableSortDesc]
  · apply List.Pairwise.sublist (List.take_sublist _ _)
    have h := List.sorted_mergeSort codeLe_trans codeLe_total (expandLevel cur)
    refine h.imp ?_
    intro a b hab
    simp at hab
    linarith
  · exact List.mergeSort_perm _ _
  · exact stableSortDesc_filter_key (expandLevel cur)

/-- The increment added to a cumulative score is never positive. -/
theorem childScore_le (s p : ℚ) : childScore s p ≤ s := by
  rw [childScore]
  have h : 0 ≤ (max 0 (1 - p)) ^ 2 := sq_nonneg _
  linarith

/-- Every pair of the expanded pool has score at most the score of some
pair of the current beam. -/
theorem expandLevel_nonpos (cur : List (BTree × ℚ)) (hcur : ∀ pr ∈ cur, pr.2 ≤ 0) :
    ∀ pr ∈ expandLevel cur, pr.2 ≤ 0 := by
  intro pr hpr
  rw [expandLevel, List.mem_flatMap] at hpr
  obtain ⟨pr0, hpr0, hmem⟩ := hpr
  by_cases hl : pr0.1.isLeaf
  · rw [if_pos hl] at hmem
    simp at hmem
    rw [hmem]
    exact hcur pr0 hpr0
  · rw [if_neg hl] at hmem
    obtain ⟨c, s⟩ := pr
    have h2 := (List.of_mem_zip hmem).2
    rw [List.mem_map] at h2
    obtain ⟨p, _, hp⟩ := h2
    rw [← hp]
    exact le_trans (childScore_le pr0.2 p) (hcur pr0 hpr0)

/-- Membership in the kept beam implies membership in the expanded pool. -/
theorem mem_of_mem_beamStep (w : ℕ) (cur : List (BTree × ℚ)) (pr : BTree × ℚ)
    (h : pr ∈ beamStep w cur) : pr ∈ expandLevel cur := by
  rw [beamStep] at h
  exact List.mem_mergeSort.mp (List.mem_of_mem_take h)

/-- Score nonpositivity is an invariant of the whole beam loop. -/
theorem beamLoop_nonpos (w : ℕ) :
    ∀ (fuel : ℕ) (cur : List (BTree × ℚ)), (∀ pr ∈ cur, pr.2 ≤ 0) →
      ∀ pr ∈ beamLoop w fuel cur, pr.2 ≤ 0 := by
  intro fuel
  induction fuel with
  | zero => intro cur hcur; exact hcur
  | succ f ih =>
    intro cur hcur
    rw [beamLoop]
    by_cases hn : numInternal cur = 0
    · rw [if_pos hn]; exact hcur
    · rw [if_neg hn]
      apply ih
      intro pr hpr
      exact expandLevel_nonpos cur hcur pr (mem_of_mem_beamStep w cur pr hpr)

/-- Entries produced by folding position updates into a score list all
satisfy a property that holds of the initial entries and of every written
value. -/
theorem foldl_set_forall {β : Type} (P : Option ℚ → Prop) :
    ∀ (l : List β) (g : β → ℕ) (v : β → Option ℚ) (sc : List (Option ℚ)),
      (∀ o ∈ sc, P o) → (∀ x ∈ l, P (v x)) →
      ∀ o ∈ l.foldl (fun sc2 x => sc2.set (g x) (v x)) sc, P o := by
  intro l
  induction l with
  | nil => intro g v sc hsc _ o ho; exact hsc o ho
  | cons x l2 ih =>
    intro g v sc hsc hl o ho
    rw [List.foldl_cons] at ho
    refine ih g v _ ?_ (fun y hy => hl y (List.mem_cons_of_mem x hy)) o ho
    intro o2 ho2
    rcases List.mem_or_eq_of_mem_set ho2 with h | h
    · exact hsc o2 h
    · rw [h]; exact hl x (List.mem_cons_self x l2)

/-- Every entry of the final score vector is either untouched (-infinity)
or an exponent written for some surviving pair. -/
theorem finalScores_forall (P : Option ℚ → Prop) (hnone : P none) (numLabels : ℕ) :
    ∀ (final : List (BTree × ℚ)), (∀ pr ∈ final, ∀ p : ℚ, P (some (childScore pr.2 p))) →
      ∀ o ∈ finalScores numLabels final, P o := by
  have hgen : ∀ (fin2 : List (BTree × ℚ)), (∀ pr ∈ fin2, ∀ p : ℚ, P (some (childScore pr.2 p))) →
      ∀ sc : List (Option ℚ), (∀ o ∈ sc, P o) →
      ∀ o ∈ fin2.foldl
        (fun scores pr =>
          (pr.1.label_map.zip pr.1.pred).foldl
            (fun sc2 lp => sc2.set lp.1 (some (childScore pr.2 lp.2))) scores) sc, P o := by
    intro fin2
    induction fin2 with
    | nil => intro _ sc hsc o ho; exact hsc o ho
    | cons pr fin ih =>
      intro hfin sc hsc o ho
      rw [List.foldl_cons] at ho
      refine ih (fun pr2 h2 => hfin pr2 (List.mem_cons_of_mem pr h2)) _ ?_ o ho
      intro o2 ho2
      refine foldl_set_forall P (pr.1.label_map.zip pr.1.pred) (fun lp => lp.1)
        (fun lp => some (childScore pr.2 lp.2)) sc hsc ?_ o2 ho2
      intro lp _
      exact hfin pr (List.mem_cons_self pr fin) lp.2
  intro final hfin o ho
  refine hgen final hfin (List.replicate numLabels none) ?_ o ho
  intro o2 ho2
  rw [List.eq_of_mem_replicate ho2]
  exact hnone

/-- C9: the score increment -max(0, 1 - pred)**2 is never positive, so a
child never scores above its parent; every score in every beam reachable
from [(root, 0.0)] is at most 0; and every entry of the per-instance
output vector is either -infinity (none) or exp of a nonpositive exponent,
a finite value in the interval (0, 1]. -/
theorem beamSearch_score_range (w fuel : ℕ) (root : BTree) (o : Option ℚ)
    (ho : o ∈ beamSearch w fuel root) :
    (∀ s p : ℚ, childScore s p ≤ s)
    ∧ (∀ pr ∈ beamLoop w fuel [(root, 0)], pr.2 ≤ 0)
    ∧ (o = none ∨ ∃ e : ℚ, o = some e ∧ e ≤ 0
        ∧ 0 < Real.exp (e : ℝ) ∧ Real.exp (e : ℝ) ≤ 1) := by
  have hloop : ∀ pr ∈ beamLoop w fuel [(root, 0)], pr.2 ≤ 0 := by
    apply beamLoop_nonpos
    intro pr hpr
    simp at hpr
    subst hpr
    norm_num
  refine ⟨childScore_le, hloop, ?_⟩
  have hP : o = none ∨ ∃ e : ℚ, o = some e ∧ e ≤ 0 := by
    refine finalScores_forall (fun o2 => o2 = none ∨ ∃ e : ℚ, o2 = some e ∧ e ≤ 0)
      (Or.inl rfl) root.label_map.length (beamLoop w fuel [(root, 0)]) ?_ o ho
    intro pr hpr p
    exact Or.inr ⟨childScore pr.2 p, rfl, le_trans (childScore_le pr.2 p) (hloop pr hpr)⟩
  rcases hP with h | ⟨e, he, he0⟩
  · exact Or.inl h
  · refine Or.inr ⟨e, he, he0, Real.exp_pos _, ?_⟩
    rw [Real.exp_le_one_iff]
    exact_mod_cast he0

/-- C9 witness: a one-node tree whose single decision value is 1 yields
the output vector [some 0], and the entry some 0 is exp(0) = 1, inside
the interval (0, 1]. -/
theorem beamSearch_score_range_wit :
    some (0 : ℚ) = none ∨ ∃ e : ℚ, some (0 : ℚ) = some e ∧ e ≤ 0
      ∧ 0 < Real.exp (e : ℝ) ∧ Real.exp (e : ℝ) ≤ 1 :=
  (beamSearch_score_range 10 1 (BTree.mk [0] [1] []) (some 0)
    (by norm_num [beamSearch, finalScores, beamLoop, numInternal, beamStep, pySorted,
      expandLevel, childScore, BTree.label_map, BTree.pred, BTree.isLeaf,
      BTree.children])).2.2

/-- Cursor and capacity state of the mmap_info dictionary of train_tree
(tree.py lines 193-200) as read and written by _as_mmap (lines 349-377):
num_data nonzeros written, num_indptr row-pointer entries written, the
shared capacity of the data and indices arrays (they are always resized
together, lines 363-364), and the capacity of the indptr array. -/
structure MmapInfo where
  num_data : ℕ
  num_indptr : ℕ
  dataCap : ℕ
  indptrCap : ℕ

/-- State change of one _as_mmap append (tree.py lines 349-377) for a
block with nnz nonzeros and rows = arr.shape[0] rows: if the data
capacity is insufficient, data and indices are both resized to
2 << (num_data + nnz - 1).bit_length() (Python int.bit_length is
Nat.size); then nnz nonzeros and rows + 1 row-pointer entries are
written and the cursors advance.  The indptr array is never resized. -/
def asMmapStep (s : MmapInfo) (nnz rows : ℕ) : MmapInfo :=
  { num_data := s.num_data + nnz
    num_indptr := s.num_indptr + (rows + 1)
    dataCap :=
      if s.dataCap < s.num_data + nnz then 2 <<< Nat.size (s.num_data + nnz - 1) else s.dataCap
    indptrCap := s.indptrCap }

/-- Sequence of _as_mmap appends over the depth-first node order of
train_tree (tree.py lines 202-207), one (nnz, rows) pair per node. -/
def runAppends (init : MmapInfo) (blocks : List (ℕ × ℕ)) : MmapInfo :=
  blocks.foldl (fun s b => asMmapStep s b.1 b.2) init

/-- Initial mmap_info state of train_tree (tree.py lines 177-200):
cursors at 0, data and indices preallocated with chunk_size = 4096, and
indptr preallocated with num_nodes * (num_features + has_bias + 1)
entries, has_bias being 1 exactly when the option flag -B is present. -/
def initMmap (numNodes numFeatures : ℕ) (hasBias : Bool) : MmapInfo :=
  { num_data := 0
    num_indptr := 0
    dataCap := 4096
    indptrCap := numNodes * (numFeatures + (cond hasBias 1 0) + 1) }

/-- Unfolding of the capacity component of one append. -/
theorem asMmapStep_dataCap (s : MmapInfo) (nnz rows : ℕ) :
    (asMmapStep s nnz rows).dataCap
      = if s.dataCap < s.num_data + nnz then 2 <<< Nat.size (s.num_data + nnz - 1)
        else s.dataCap := rfl

/-- Bit length of the predecessor gives the ceiling base-2 logarithm:
2 ^ (n - 1).bit_length() is the least power of two that is at least n. -/
theorem size_pred_eq_clog (n : ℕ) (h : 1 ≤ n) : Nat.size (n - 1) = Nat.clog 2 n := by
  apply le_antisymm
  · rw [Nat.size_le]
    have h2 := Nat.le_pow_clog one_lt_two n
    omega
  · rw [← Nat.le_pow_iff_clog_le one_lt_two]
    have h3 := Nat.lt_size_self (n - 1)
    omega

/-- C4 counterexample: appending one nonzero to a full capacity-4096
buffer needs 4097 slots; the smallest power of two at least 4097 is
2 ^ 13 = 8192, but the code grows the capacity to 16384, so the claim
that the arrays grow to exactly the smallest sufficient power of two is
false at this input. -/
theorem asMmapStep_growth_cex :
    (asMmapStep (MmapInfo.mk 4096 0 4096 0) 1 0).dataCap = 16384
    ∧ (4097 : ℕ) ≤ 2 ^ 13 ∧ (2 : ℕ) ^ 13 = 8192 ∧ (8192 : ℕ) < 16384 := by
  refine ⟨?_, by norm_num, by norm_num, by norm_num⟩
  have hsz : Nat.size (4096 : ℕ) = 13 := by
    apply le_antisymm
    · rw [Nat.size_le]; norm_num
    · have h2 := Nat.lt_size.mpr (show 2 ^ 12 ≤ 4096 by norm_num)
      omega
  have hc : (MmapInfo.mk 4096 0 4096 0).dataCap
      < (MmapInfo.mk 4096 0 4096 0).num_data + 1 := by norm_num
  rw [asMmapStep_dataCap, if_pos hc]
  have harg : (MmapInfo.mk 4096 0 4096 0).num_data + 1 - 1 = 4096 := by norm_num
  rw [harg, hsz, Nat.shiftLeft_eq]

/-- C4 amended: when the capacity check fails, _as_mmap grows the data
and indices capacity to exactly TWICE the smallest power of two that is
at least used + nnz, that is to 2 ^ (clog2(used + nnz) + 1), where
2 ^ clog2(used + nnz) is the least sufficient power of two; in
particular the grown capacity is sufficient. -/
theorem asMmapStep_growth (s : MmapInfo) (nnz rows : ℕ) (h : s.dataCap < s.num_data + nnz) :
    (asMmapStep s nnz rows).dataCap = 2 ^ (Nat.clog 2 (s.num_data + nnz) + 1)
    ∧ s.num_data + nnz ≤ 2 ^ Nat.clog 2 (s.num_data + nnz)
    ∧ (∀ m : ℕ, s.num_data + nnz ≤ 2 ^ m → Nat.clog 2 (s.num_data + nnz) ≤ m)
    ∧ s.num_data + nnz ≤ (asMmapStep s nnz rows).dataCap := by
  have h1 : 1 ≤ s.num_data + nnz := by omega
  have hcap : (asMmapStep s nnz rows).dataCap = 2 ^ (Nat.clog 2 (s.num_data + nnz) + 1) := by
    rw [asMmapStep_dataCap, if_pos h, Nat.shiftLeft_eq, size_pred_eq_clog _ h1, pow_succ,
      mul_comm]
  have hle := Nat.le_pow_clog one_lt_two (s.num_data + nnz)
  refine ⟨hcap, hle, ?_, ?_⟩
  · intro m hm
    exact (Nat.le_pow_iff_clog_le one_lt_two).mp hm
  · rw [hcap, pow_succ]
    omega

/-- C4 amended witness: the concrete overflow of the counterexample grows
the capacity to twice the least sufficient power of two. -/
theorem asMmapStep_growth_wit :
    (asMmapStep (MmapInfo.mk 4096 0 4096 0) 1 0).dataCap
      = 2 ^ (Nat.clog 2 ((MmapInfo.mk 4096 0 4096 0).num_data + 1) + 1) :=
  (asMmapStep_growth (MmapInfo.mk 4096 0 4096 0) 1 0 (by norm_num)).1

/-- A sequence of appends advances the row-pointer cursor by at most
rows + 1 entries per block. -/
theorem runAppends_num_indptr_le (R : ℕ) :
    ∀ (blocks : List (ℕ × ℕ)) (init : MmapInfo), (∀ b ∈ blocks, b.2 ≤ R) →
      (runAppends init blocks).num_indptr ≤ init.num_indptr + blocks.length * (R + 1) := by
  intro blocks
  induction blocks with
  | nil => intro init _; simp [runAppends]
  | cons b blocks ih =>
    intro init hb
    rw [runAppends, List.foldl_cons]
    have h2 := ih (asMmapStep init b.1 b.2) fun x hx => hb x (List.mem_cons_of_mem b hx)
    rw [runAppends] at h2
    have h3 : (asMmapStep init b.1 b.2).num_indptr = init.num_indptr + (b.2 + 1) := rfl
    have h4 : b.2 ≤ R := hb b (List.mem_cons_self b blocks)
    calc (List.foldl (fun s b2 => asMmapStep s b2.1 b2.2) (asMmapStep init b.1 b.2)
          blocks).num_indptr
        ≤ (asMmapStep init b.1 b.2).num_indptr + blocks.length * (R + 1) := h2
      _ ≤ init.num_indptr + (b :: blocks).length * (R + 1) := by
          rw [h3, List.length_cons]
          ring_nf
          omega

/-- No append ever changes the indptr capacity. -/
theorem runAppends_indptrCap :
    ∀ (blocks : List (ℕ × ℕ)) (init : MmapInfo),
      (runAppends init blocks).indptrCap = init.indptrCap := by
  intro blocks
  induction blocks with
  | nil => intro init; rfl
  | cons b blocks ih =>
    intro init
    rw [runAppends, List.foldl_cons]
    exact ih (asMmapStep init b.1 b.2)

/-- C7: for a training run of num_nodes appended blocks each with at most
num_features + has_bias rows, every per-node write of rows + 1
row-pointer entries at offset num_indptr stays within the up-front
capacity num_nodes * (num_features + has_bias + 1), and the indptr
capacity is never changed by any sequence of appends (the array is never
resized). -/
theorem indptr_within_capacity (numNodes F : ℕ) (hb : Bool) (blocks : List (ℕ × ℕ))
    (hlen : blocks.length = numNodes)
    (hrows : ∀ b ∈ blocks, b.2 ≤ F + cond hb 1 0) :
    (∀ k (hk : k < blocks.length),
        (runAppends (initMmap numNodes F hb) (blocks.take k)).num_indptr
            + ((blocks.get ⟨k, hk⟩).2 + 1)
          ≤ (initMmap numNodes F hb).indptrCap)
    ∧ ∀ bs : List (ℕ × ℕ),
        (runAppends (initMmap numNodes F hb) bs).indptrCap
          = (initMmap numNodes F hb).indptrCap := by
  constructor
  · intro k hk
    have h1 : (runAppends (initMmap numNodes F hb) (blocks.take k)).num_indptr
        ≤ 0 + (blocks.take k).length * (F + cond hb 1 0 + 1) := by
      apply runAppends_num_indptr_le
      intro b hbmem
      exact hrows b (List.mem_of_mem_take hbmem)
    have h2 : (blocks.take k).length = k := by
      rw [List.length_take]
      omega
    have h3 : (blocks.get ⟨k, hk⟩).2 ≤ F + cond hb 1 0 :=
      hrows _ (List.get_mem blocks k hk)
    have h4 : k + 1 ≤ numNodes := by omega
    have h5 : (k + 1) * (F + cond hb 1 0 + 1) ≤ numNodes * (F + cond hb 1 0 + 1) :=
      Nat.mul_le_mul_right _ h4
    show _ ≤ numNodes * (F + cond hb 1 0 + 1)
    rw [h2] at h1
    calc (runAppends (initMmap numNodes F hb) (blocks.take k)).num_indptr
          + ((blocks.get ⟨k, hk⟩).2 + 1)
        ≤ k * (F + cond hb 1 0 + 1) + (F + cond hb 1 0 + 1) := by omega
      _ = (k + 1) * (F + cond hb 1 0 + 1) := by ring
      _ ≤ numNodes * (F + cond hb 1 0 + 1) := h5
  · intro bs
    exact runAppends_indptrCap bs _

/-- C7 witness: two blocks over 3 features with bias, rows 4 and 3; the
second write of 3 + 1 entries at offset 5 stays within the capacity
2 * (3 + 1 + 1) = 10. -/
theorem indptr_within_capacity_wit :
    (runAppends (initMmap 2 3 true) ([((5 : ℕ), (4 : ℕ)), (2, 3)].take 1)).num_indptr
        + (([((5 : ℕ), (4 : ℕ)), (2, 3)].get ⟨1, by norm_num⟩).2 + 1)
      ≤ (initMmap 2 3 true).indptrCap :=
  (indptr_within_capacity 2 3 true [(5, 4), (2, 3)] (by norm_num) (by decide)).1 1 (by norm_num)

/-- Shape-level view of a CSR block as consumed by _mmap_hstack and
_hstack_info (tree.py lines 380-436): row count, column count and number
of stored nonzeros. -/
structure Csr where
  rows : ℕ
  cols : ℕ
  nnz : ℕ
deriving DecidableEq

/-- Error message raised by _hstack_info on a row-count mismatch
(tree.py line 416; the source concatenates the two adjacent string
literals without a separating space). -/
def dimMismatchMsg : String :=
  "all the input matrix dimensions for the concatenationaxis must match exactly"

/-- Message for the IndexError that blocks[0] would raise on an empty
list (tree.py line 406); _hstack_info is only called with at least one
block. -/
def emptyIndexMsg : String := "index out of range"

/-- Embedding of _hstack_info (tree.py lines 404-436): reads the row
count of the first block, checks every block against it (raising the
dimension-mismatch ValueError otherwise), and accumulates the total
column and nonzero counts. -/
def hstackInfo : List Csr → Except String (ℕ × ℕ × ℕ)
  | [] => Except.error emptyIndexMsg
  | b :: bs =>
    if (b :: bs).all fun c => c.rows == b.rows then
      Except.ok (b.rows, ((b :: bs).map Csr.cols).sum, ((b :: bs).map Csr.nnz).sum)
    else Except.error dimMismatchMsg

/-- Embedding of _mmap_hstack (tree.py lines 380-401) at the level of the
result shape and the number of mapped-array files created: an empty block
list short-circuits to an empty 0 x 0 sparse matrix before any fileio
Array is constructed; otherwise _hstack_info validates the blocks and
three mapped files (data, indices, indptr) are created. -/
def mmapHstack (blocks : List Csr) : Except String (Csr × ℕ) :=
  if blocks.length = 0 then Except.ok (Csr.mk 0 0 0, 0)
  else
    match hstackInfo blocks with
    | Except.ok info => Except.ok (Csr.mk info.1 info.2.1 info.2.2, 3)
    | Except.error e => Except.error e

/-- C10: called on an empty list of blocks, _mmap_hstack returns the
empty 0 x 0 sparse matrix without raising and without creating any
mapped-array file, and the row-count-mismatch error can only arise when
at least one block is present. -/
theorem mmapHstack_empty_ok :
    mmapHstack [] = Except.ok (Csr.mk 0 0 0, 0)
    ∧ ∀ (bs : List Csr) (e : String), mmapHstack bs = Except.error e → bs ≠ [] := by
  constructor
  · rfl
  · intro bs e herr hbs
    subst hbs
    exact absurd herr (by simp [mmapHstack])

/-- C10 witness: a two-block list with mismatched row counts is nonempty,
obtained from the theorem at the concrete mismatch error. -/
theorem mmapHstack_empty_ok_wit : ([Csr.mk 2 1 0, Csr.mk 3 1 0] : List Csr) ≠ [] :=
  mmapHstack_empty_ok.2 [Csr.mk 2 1 0, Csr.mk 3 1 0] dimMismatchMsg (by rfl)

/-- State of the tree cache entry for the fingerprint computed by
train_tree (tree.py lines 144-148): the cache file may be absent, present
but corrupted or truncated, or present and valid. -/
inductive CacheEntry where
  | absent
  | corrupt
  | valid (t : LTree)

/-- Message of the exception pickle.load raises on a corrupted or
truncated stream. -/
def unpicklingMsg : String := "UnpicklingError"

/-- Message of the exception open would raise on a missing file; the
is_file guard makes this branch unreachable in the source. -/
def missingFileMsg : String := "FileNotFoundError"

/-- Result of pickle.load on the cache file (tree.py line 153). -/
def pickleLoad : CacheEntry → Except String LTree
  | CacheEntry.corrupt => Except.error unpicklingMsg
  | CacheEntry.valid t => Except.ok t
  | CacheEntry.absent => Except.error missingFileMsg

/-- Embedding of cache_path.is_file() (tree.py line 150). -/
def cacheIsFile : CacheEntry → Bool
  | CacheEntry.absent => false
  | CacheEntry.corrupt => true
  | CacheEntry.valid _ => true

/-- Embedding of the cache branch of train_tree (tree.py lines 150-161):
if the cache file exists, root is pickle.load of it, with NO exception
handling around the load; only when the file does not exist is the tree
rebuilt (and persisted).  The argument built stands for the tree the
builder would produce on a miss. -/
def loadOrBuildRoot (entry : CacheEntry) (built : LTree) : Except String LTree :=
  if cacheIsFile entry then pickleLoad entry else Except.ok built

/-- C5: a corrupted cache entry at the computed fingerprint is NOT
treated as a miss: train_tree propagates the pickle.load failure as a
hard error and never falls back to rebuilding, while an absent entry does
rebuild; this contradicts the claimed warn-and-rebuild behavior. -/
theorem corrupt_cache_hard_failure :
    loadOrBuildRoot CacheEntry.corrupt (LTree.mk [0] []) = Except.error unpicklingMsg
    ∧ loadOrBuildRoot CacheEntry.absent (LTree.mk [0] []) = Except.ok (LTree.mk [0] []) :=
  ⟨rfl, rfl⟩
